import Mathlib

/-!
Verification development for the QNM ringdown waveform module
(`BH_waveforms.py` of the HSOIT project).

The store of quasinormal-mode template entries, the spin interpolator,
the perturbative frequency model and the waveform synthesizer are
embedded shallowly: machine floats become exact rationals `ℚ`, the
complex frequency becomes a pair `ℚ × ℚ` of (real part, imaginary
part), Python exceptions become an explicit error type carried by
`Except`, and the real-valued strain samples live in `ℝ` through
`Real.exp` and `Real.cos`.
-/

namespace BHW

/-- One row of the QNM template table: spin `a`, reference complex
frequency `(omega0_R, omega0_I)`, and the four correction
coefficients.  Mirrors the per-entry dict built by
`load_QNM_templates`. -/
structure Entry where
  a : ℚ
  omega0_R : ℚ
  omega0_I : ℚ
  alpha1 : ℚ
  alpha2 : ℚ
  beta1 : ℚ
  beta2 : ℚ
  deriving DecidableEq

/-- The in-memory table `qnm_data`: an association of mode keys
`(l, n)` to their entry lists. -/
def Store : Type := List ((ℤ × ℤ) × List Entry)

/-- Failure taxonomy of the module: the `ValueError` for an absent
mode (also the `RuntimeError` of `get_frequency`), the out-of-range
`ValueError` carrying the query spin and the bounds, and the Python
`IndexError` of an index falling outside the entry list. -/
inductive QNMError where
  | unknownMode : ℤ × ℤ → QNMError
  | outOfRange : ℚ → ℚ → ℚ → QNMError
  | indexError : QNMError
  deriving DecidableEq

/-- Dictionary lookup `qnm_data.get(mode_key)`. -/
def lookupMode : Store → ℤ × ℤ → Option (List Entry)
  | [], _ => none
  | (k, v) :: rest, m => if k = m then some v else lookupMode rest m

/-- The exact-match tolerance `1e-6` of `interpolate_entry`. -/
def tol : ℚ := 1 / 1000000

/-- The scan `for entry in entries: if abs(entry['a'] - a) < 1e-6:
return entry` — the first stored entry within `tol` of the query
spin, if any. -/
def findExact (a : ℚ) : List Entry → Option Entry
  | [] => none
  | e :: es => if |e.a - a| < tol then some e else findExact a es

/-- The `while entries[idx_higher]['a'] < a: idx_higher += 1` loop
started at index 0: the number of leading entries with spin strictly
below `a` (equals the list length when no entry reaches `a`). -/
def findHigher (a : ℚ) : List Entry → ℕ
  | [] => 0
  | e :: es => if e.a < a then findHigher a es + 1 else 0

/-- Python list indexing with negative-index wraparound:
`xs[i]` is `xs[len xs + i]` for `i < 0`, and `none` stands for an
`IndexError`. -/
def pyGet (xs : List Entry) (i : ℤ) : Option Entry :=
  if 0 ≤ i then xs.get? i.toNat
  else if (-i).toNat ≤ xs.length then xs.get? (xs.length - (-i).toNat)
  else none

/-- The interpolated entry built from the bracketing pair:
`frac = (a - a_low) / (a_high - a_low)` and every numeric field is
`lerp`ed independently, while the `a` field is set to the query spin
itself. -/
def lerpEntry (a : ℚ) (eL eH : Entry) : Entry :=
  let frac := (a - eL.a) / (eH.a - eL.a)
  ⟨a,
   eL.omega0_R + frac * (eH.omega0_R - eL.omega0_R),
   eL.omega0_I + frac * (eH.omega0_I - eL.omega0_I),
   eL.alpha1 + frac * (eH.alpha1 - eL.alpha1),
   eL.alpha2 + frac * (eH.alpha2 - eL.alpha2),
   eL.beta1 + frac * (eH.beta1 - eL.beta1),
   eL.beta2 + frac * (eH.beta2 - eL.beta2)⟩

/-- The bracket-and-interpolate tail of `interpolate_entry`:
`idx_higher` is the first index whose spin is not below `a`,
`e_low = entries[idx_higher - 1]` (Python negative indexing applies
when `idx_higher = 0`), and the result is the `lerp`ed entry. -/
def bracketInterp (a : ℚ) (entries : List Entry) : Except QNMError Entry :=
  let j := findHigher a entries
  match pyGet entries (j : ℤ), pyGet entries ((j : ℤ) - 1) with
  | some eH, some eL => .ok (lerpEntry a eL eH)
  | _, _ => .error .indexError

/-- `interpolate_entry` after the exact-match scan came back empty:
read `min_a = entries[0]['a']` and `max_a = entries[-1]['a']`, raise
`OutOfRangeError` when `a` falls strictly outside `[min_a, max_a]`,
otherwise interpolate between the bracketing pair. -/
def interpolateNoExact (a : ℚ) (entries : List Entry) : Except QNMError Entry :=
  match pyGet entries 0, pyGet entries (-1) with
  | some e0, some eN =>
    if a < e0.a ∨ eN.a < a then .error (.outOfRange a e0.a eN.a)
    else bracketInterp a entries
  | _, _ => .error .indexError

/-- Body of `interpolate_entry` once the mode's entry list is in
hand: exact-match short-circuit first, then range check and
interpolation. -/
def interpolateInList (a : ℚ) (entries : List Entry) : Except QNMError Entry :=
  match findExact a entries with
  | some e => .ok e
  | none => interpolateNoExact a entries

/-- `interpolate_entry(mode_key, a)`: interpolate the QNM data of a
mode at spin `a`, failing on an unknown mode. -/
def interpolate_entry (store : Store) (mode : ℤ × ℤ) (a : ℚ) : Except QNMError Entry :=
  match lookupMode store mode with
  | none => .error (.unknownMode mode)
  | some entries => interpolateInList a entries

/-- `get_frequency(a, l, n, eps)`: the complex QNM frequency as a
(real, imaginary) pair, obtained from the (possibly interpolated)
reference entry and the quadratic-in-`eps` correction
`delta_R = alpha1*eps + alpha2*eps^2`,
`delta_I = beta1*eps + beta2*eps^2`. -/
def get_frequency (store : Store) (a : ℚ) (l n : ℤ) (eps : ℚ) :
    Except QNMError (ℚ × ℚ) :=
  match lookupMode store (l, n) with
  | none => .error (.unknownMode (l, n))
  | some _ =>
    match interpolate_entry store (l, n) a with
    | .error err => .error err
    | .ok entry =>
      let dR := entry.alpha1 * eps + entry.alpha2 * eps ^ 2
      let dI := entry.beta1 * eps + entry.beta2 * eps ^ 2
      .ok (entry.omega0_R + dR, entry.omega0_I + dI)

/-- Length of `np.arange(0, duration, dt)`: `ceil(duration / dt)`,
clipped at zero. -/
def gridLen (duration dt : ℚ) : ℕ := (⌈duration / dt⌉).toNat

/-- The uniform time grid `t = np.arange(0, duration, dt)`, with the
`i`-th point equal to `i * dt` (index-based, no cumulative drift). -/
def timeGrid (duration dt : ℚ) : List ℚ :=
  (List.range (gridLen duration dt)).map (fun i : ℕ => (i : ℚ) * dt)

/-- The per-mode frequency lookups of the synthesis loop, in list
order; the first failing `get_frequency` aborts the whole run, as the
raised exception does in the source. -/
def modeFreqs (store : Store) (spin eps : ℚ) :
    List (ℤ × ℤ) → Except QNMError (List (ℚ × ℚ))
  | [] => .ok []
  | (l, n) :: rest =>
    match get_frequency store spin l n eps with
    | .error err => .error err
    | .ok om =>
      match modeFreqs store spin eps rest with
      | .error err => .error err
      | .ok oms => .ok (om :: oms)

/-- One mode's contribution at time `t`:
`A_ln * np.exp(omega_I * t) * np.cos(omega_R * t)` with unit
amplitude `A_ln = 1` and zero initial phase. -/
noncomputable def modeContrib (om : ℚ × ℚ) (t : ℚ) : ℝ :=
  1 * Real.exp ((om.2 : ℝ) * (t : ℝ)) * Real.cos ((om.1 : ℝ) * (t : ℝ))

/-- The accumulation loop `h_total = zeros; for mode: h_total +=
h_mode`, folded over the already-looked-up mode frequencies. -/
noncomputable def accumStrain (ts : List ℚ) (oms : List (ℚ × ℚ)) : List ℝ :=
  oms.foldl (fun h om => List.zipWith (· + ·) h (ts.map (modeContrib om)))
    (ts.map fun _ => (0 : ℝ))

/-- `generate_waveform(mass, spin, eps, modes, duration, dt)`:
builds the time grid, sums the per-mode decaying cosinusoids, and
returns `(t, h_total)`.  The `mass` argument is accepted and unused,
as in the source (`M = 1` geometric units; rescaling is a noted
non-goal). -/
noncomputable def generate_waveform (store : Store) (mass spin eps : ℚ)
    (modes : List (ℤ × ℤ)) (duration dt : ℚ) :
    Except QNMError (List ℚ × List ℝ) :=
  match modeFreqs store spin eps modes with
  | .error err => .error err
  | .ok oms => .ok (timeGrid duration dt, accumStrain (timeGrid duration dt) oms)

/-- The synthesis contract of the specification, `synthesize(store,
spin, eps, modes, duration, dt)`: `generate_waveform` at the default
unit mass. -/
noncomputable def synthesize (store : Store) (spin eps : ℚ)
    (modes : List (ℤ × ℤ)) (duration dt : ℚ) :
    Except QNMError (List ℚ × List ℝ) :=
  generate_waveform store 1 spin eps modes duration dt

/-! ### Concrete tables

`testStore` is the table of the specification's concrete scenarios:
mode `(2,0)` with entries at spins `0.0` and `1.0`, plus a one-entry
mode `(3,0)` used to exercise superposition. `closeStore` is a table
whose two stored spins lie within the `1e-6` exact-match tolerance of
each other. -/

def testE0 : Entry := ⟨0, 1/2, -1/10, 1/50, 0, -1/100, 0⟩

def testE1 : Entry := ⟨1, 3/5, -2/25, 3/100, 0, -3/200, 0⟩

def testE3 : Entry := ⟨0, 7/10, -1/5, 0, 0, 0, 0⟩

def testEntries20 : List Entry := [testE0, testE1]

def testStore : Store := [((2, 0), testEntries20), ((3, 0), [testE3])]

def closeE0 : Entry := ⟨0, 1, 0, 0, 0, 0, 0⟩

def closeE1 : Entry := ⟨1/2000000, 2, 0, 0, 0, 0, 0⟩

def closeStore : Store := [((2, 0), [closeE0, closeE1])]

/-- The linear interpolation of `testE0` and `testE1` at spin `1/2`
(`frac = 1/2`), written out field by field. -/
def interpHalf : Entry := ⟨1/2, 11/20, -9/100, 1/40, 0, -1/80, 0⟩

/-! ### Helper lemmas about the exact-match scan -/

theorem findExact_eq_none_iff {a : ℚ} {l : List Entry} :
    findExact a l = none ↔ ∀ e ∈ l, ¬ |e.a - a| < tol := by
  induction l with
  | nil => simp [findExact]
  | cons x xs ih =>
    by_cases hx : |x.a - a| < tol
    · simp [findExact, hx]
    · simp only [findExact, hx, if_false, ih, List.mem_cons]
      constructor
      · rintro h e (rfl | he)
        · exact hx
        · exact h e he
      · intro h e he
        exact h e (Or.inr he)

theorem findExact_isSome_of_mem {a : ℚ} {l : List Entry} {e : Entry}
    (he : e ∈ l) (hcl : |e.a - a| < tol) :
    ∃ e2, findExact a l = some e2 ∧ e2 ∈ l ∧ |e2.a - a| < tol := by
  induction l with
  | nil => cases he
  | cons x xs ih =>
    by_cases hx : |x.a - a| < tol
    · exact ⟨x, by simp [findExact, hx], List.mem_cons_self x xs, hx⟩
    · rcases List.mem_cons.1 he with rfl | hmem
      · exact absurd hcl hx
      · obtain ⟨e2, h1, h2, h3⟩ := ih hmem
        exact ⟨e2, by simp [findExact, hx, h1], List.mem_cons_of_mem x h2, h3⟩

theorem findExact_eq_of_sep {s : ℚ} {l : List Entry} {e : Entry}
    (he : e ∈ l) (ha : e.a = s)
    (hsep : ∀ e2 ∈ l, e2 ≠ e → tol ≤ |e2.a - s|) :
    findExact s l = some e := by
  induction l with
  | nil => cases he
  | cons x xs ih =>
    by_cases hx : x = e
    · subst hx
      simp [findExact, ha, tol]
    · have hfar : ¬ |x.a - s| < tol :=
        not_lt.2 (hsep x (List.mem_cons_self x xs) hx)
      have hmem : e ∈ xs := by
        rcases List.mem_cons.1 he with h | h
        · exact absurd h.symm hx
        · exact h
      simpa [findExact, hfar] using
        ih hmem (fun e2 h2 => hsep e2 (List.mem_cons_of_mem x h2))

/-! ### Helper lemmas about the bracket-searching loop -/

theorem findHigher_lt_length {a : ℚ} {l : List Entry} {e : Entry}
    (he : e ∈ l) (hae : a ≤ e.a) : findHigher a l < l.length := by
  induction l with
  | nil => cases he
  | cons x xs ih =>
    by_cases hx : x.a < a
    · rcases List.mem_cons.1 he with rfl | hmem
      · exact absurd hx (not_lt.2 hae)
      · simpa [findHigher, hx, Nat.succ_lt_succ_iff] using ih hmem
    · simp [findHigher, hx]

theorem findHigher_le_spin {a : ℚ} {l : List Entry}
    (h : findHigher a l < l.length) : a ≤ (l.get ⟨findHigher a l, h⟩).a := by
  induction l with
  | nil => simp [findHigher] at h
  | cons x xs ih =>
    by_cases hx : x.a < a
    · have h' : findHigher a xs < xs.length := by
        simpa [findHigher, hx, Nat.succ_lt_succ_iff] using h
      simpa [findHigher, hx] using ih h'
    · simpa [findHigher, hx] using not_lt.1 hx

theorem findHigher_gt_spin {a : ℚ} {l : List Entry} (k : ℕ) (hk : k < l.length)
    (hlt : k < findHigher a l) : (l.get ⟨k, hk⟩).a < a := by
  induction l generalizing k with
  | nil => simp at hk
  | cons x xs ih =>
    by_cases hx : x.a < a
    · match k with
      | 0 => simpa using hx
      | k + 1 =>
        have hk' : k < xs.length := by simpa using hk
        have hlt' : k < findHigher a xs := by
          simpa [findHigher, hx, Nat.succ_lt_succ_iff] using hlt
        simpa using ih k hk' hlt'
    · simp [findHigher, hx] at hlt

/-! ### Helper lemmas about Python-style indexing -/

theorem pyGet_zero (l : List Entry) : pyGet l 0 = l.head? := by
  cases l with
  | nil => simp [pyGet]
  | cons x xs => simp [pyGet]

theorem get?_length_sub_one {l : List Entry} (h : l ≠ []) :
    l.get? (l.length - 1) = l.getLast? := by
  induction l with
  | nil => simp at h
  | cons x xs ih =>
    cases xs with
    | nil => simp
    | cons y ys =>
      have hne : (y :: ys : List Entry) ≠ [] := by simp
      have hlen : (x :: y :: ys : List Entry).length - 1 = (y :: ys).length := by
        simp
      rw [hlen]
      have : (x :: y :: ys : List Entry).get? ((y :: ys).length) =
          (y :: ys).get? ((y :: ys).length - 1) := by
        simp [List.get?_cons_succ]
      rw [this, ih hne, List.getLast?_cons_cons]

theorem pyGet_neg_one (l : List Entry) : pyGet l (-1) = l.getLast? := by
  cases l with
  | nil => simp [pyGet]
  | cons x xs =>
    have hne : (x :: xs : List Entry) ≠ [] := by simp
    have hle : ((-(-1 : ℤ)).toNat) ≤ (x :: xs).length := by simp
    simp only [pyGet, if_neg (by norm_num : ¬ (0:ℤ) ≤ -1), if_pos hle]
    simpa using get?_length_sub_one hne

theorem pyGet_natCast (l : List Entry) (k : ℕ) : pyGet l (k : ℤ) = l.get? k := by
  simp [pyGet]

theorem pyGet_coe_sub_one (l : List Entry) (k : ℕ) (hk : 1 ≤ k) :
    pyGet l ((k : ℤ) - 1) = l.get? (k - 1) := by
  have h0 : (0 : ℤ) ≤ (k : ℤ) - 1 := by omega
  have ht : ((k : ℤ) - 1).toNat = k - 1 := by omega
  simp [pyGet, h0, ht]

theorem head?_mem {l : List Entry} {e : Entry} (h : l.head? = some e) : e ∈ l := by
  cases l with
  | nil => simp at h
  | cons x xs =>
    simp only [List.head?_cons, Option.some.injEq] at h
    exact h ▸ List.mem_cons_self x xs

theorem getLast?_mem {l : List Entry} {e : Entry} (h : l.getLast? = some e) :
    e ∈ l := by
  induction l with
  | nil => simp at h
  | cons x xs ih =>
    cases xs with
    | nil =>
      simp only [List.getLast?_singleton, Option.some.injEq] at h
      exact h ▸ List.mem_cons_self x []
    | cons y ys =>
      rw [List.getLast?_cons_cons] at h
      exact List.mem_cons_of_mem x (ih h)

theorem get?_zero_of_head? {l : List Entry} {e : Entry} (h : l.head? = some e) :
    l.get? 0 = some e := by
  cases l <;> simp_all

/-! ### The interior interpolation path -/

theorem interpolateInList_bracket {a : ℚ} {entries : List Entry} {e0 eN : Entry}
    (hhead : entries.head? = some e0) (hlast : entries.getLast? = some eN)
    (hfar : findExact a entries = none)
    (hlo : e0.a ≤ a) (hhi : a ≤ eN.a) :
    ∃ (i : ℕ) (eL eH : Entry),
      entries.get? i = some eL ∧ entries.get? (i + 1) = some eH ∧
      eL.a < a ∧ a ≤ eH.a ∧
      interpolateInList a entries = .ok (lerpEntry a eL eH) := by
  have he0 : e0 ∈ entries := head?_mem hhead
  have heN : eN ∈ entries := getLast?_mem hlast
  have hj : findHigher a entries < entries.length :=
    findHigher_lt_length heN hhi
  have he0far : ¬ |e0.a - a| < tol := (findExact_eq_none_iff.1 hfar) e0 he0
  have he0lt : e0.a < a := by
    rcases lt_or_eq_of_le hlo with h | h
    · exact h
    · exact absurd (by simp [h, tol]) he0far
  have hpos : 0 < findHigher a entries := by
    rcases Nat.eq_zero_or_pos (findHigher a entries) with hz0 | h
    · exfalso
      obtain ⟨eh, hq, hle⟩ :
          ∃ eh, entries.get? (findHigher a entries) = some eh ∧ a ≤ eh.a :=
        ⟨_, List.get?_eq_get hj, findHigher_le_spin hj⟩
      rw [hz0, get?_zero_of_head? hhead] at hq
      have he : e0 = eh := Option.some.inj hq
      rw [← he] at hle
      exact absurd hle (not_le.2 he0lt)
    · exact h
  set j := findHigher a entries with hjdef
  have hj1 : j - 1 < entries.length := lt_of_le_of_lt (Nat.sub_le j 1) hj
  refine ⟨j - 1, entries.get ⟨j - 1, hj1⟩, entries.get ⟨j, hj⟩, ?_, ?_, ?_, ?_, ?_⟩
  · exact (List.get?_eq_get hj1)
  · rw [Nat.sub_add_cancel hpos]
    exact (List.get?_eq_get hj)
  · exact findHigher_gt_spin (j - 1) hj1 (Nat.sub_lt hpos Nat.one_pos)
  · exact findHigher_le_spin hj
  · have hcond : ¬ (a < e0.a ∨ eN.a < a) := by
      push_neg
      exact ⟨hlo, hhi⟩
    have hgetj : pyGet entries (j : ℤ) = some (entries.get ⟨j, hj⟩) := by
      rw [pyGet_natCast, List.get?_eq_get hj]
    have hgetj1 : pyGet entries ((j : ℤ) - 1) = some (entries.get ⟨j - 1, hj1⟩) := by
      rw [pyGet_coe_sub_one entries j hpos, List.get?_eq_get hj1]
    simp only [interpolateInList, hfar]
    simp only [interpolateNoExact, pyGet_zero, pyGet_neg_one, hhead, hlast]
    rw [if_neg hcond]
    simp only [bracketInterp, ← hjdef, hgetj, hgetj1]

/-! ### The out-of-range path -/

theorem interpolateInList_out_of_range {a : ℚ} {entries : List Entry} {e0 eN : Entry}
    (hhead : entries.head? = some e0) (hlast : entries.getLast? = some eN)
    (hfar : findExact a entries = none)
    (hout : a < e0.a ∨ eN.a < a) :
    interpolateInList a entries = .error (.outOfRange a e0.a eN.a) := by
  simp only [interpolateInList, hfar]
  simp only [interpolateNoExact, pyGet_zero, pyGet_neg_one, hhead, hlast]
  rw [if_pos hout]

/-! ### Helper lemmas about the synthesis loop -/

theorem zipWith_add_map_same {α : Type} (g h : α → ℝ) (l : List α) :
    List.zipWith (· + ·) (l.map g) (l.map h) = l.map (fun x => g x + h x) := by
  induction l with
  | nil => simp
  | cons x xs ih => simp [ih]

theorem accumStrain_foldl (ts : List ℚ) (oms : List (ℚ × ℚ)) (g : ℚ → ℝ) :
    oms.foldl (fun h om => List.zipWith (· + ·) h (ts.map (modeContrib om)))
      (ts.map g) =
    ts.map (fun t => g t + (oms.map (fun om => modeContrib om t)).sum) := by
  induction oms generalizing g with
  | nil => simp
  | cons om oms ih =>
    simp only [List.foldl_cons, zipWith_add_map_same]
    rw [ih]
    refine congrArg (fun f => List.map f ts) (funext fun t => ?_)
    simp [add_assoc]

theorem accumStrain_eq (ts : List ℚ) (oms : List (ℚ × ℚ)) :
    accumStrain ts oms =
      ts.map (fun t => (oms.map (fun om => modeContrib om t)).sum) := by
  have h0 : (ts.map fun _ => (0 : ℝ)) = ts.map (fun _ : ℚ => (0 : ℝ)) := rfl
  rw [accumStrain, accumStrain_foldl ts oms (fun _ => 0)]
  simp

theorem modeFreqs_isOk_iff (store : Store) (spin eps : ℚ) (modes : List (ℤ × ℤ)) :
    (∃ oms, modeFreqs store spin eps modes = .ok oms) ↔
      ∀ m ∈ modes, ∃ om, get_frequency store spin m.1 m.2 eps = .ok om := by
  induction modes with
  | nil => simp [modeFreqs]
  | cons m rest ih =>
    obtain ⟨l, n⟩ := m
    constructor
    · rintro ⟨oms, homs⟩ m' hm'
      rcases List.mem_cons.1 hm' with rfl | hmem
      · simp only [modeFreqs] at homs
        cases hg : get_frequency store spin l n eps with
        | error err => rw [hg] at homs; cases homs
        | ok om => exact ⟨om, rfl⟩
      · simp only [modeFreqs] at homs
        cases hg : get_frequency store spin l n eps with
        | error err => rw [hg] at homs; cases homs
        | ok om =>
          rw [hg] at homs
          cases hr : modeFreqs store spin eps rest with
          | error err => rw [hr] at homs; cases homs
          | ok oms2 => exact (ih.1 ⟨oms2, hr⟩) m' hmem
    · intro hall
      obtain ⟨om, hom⟩ := hall (l, n) (List.mem_cons_self _ _)
      obtain ⟨oms2, homs2⟩ := ih.2 (fun m' hm' => hall m' (List.mem_cons_of_mem _ hm'))
      exact ⟨om :: oms2, by simp only [modeFreqs, hom, homs2]⟩

theorem synthesize_ok_of_modeFreqs {store : Store} {spin eps duration dt : ℚ}
    {modes : List (ℤ × ℤ)} {oms : List (ℚ × ℚ)}
    (h : modeFreqs store spin eps modes = .ok oms) :
    synthesize store spin eps modes duration dt =
      .ok (timeGrid duration dt, accumStrain (timeGrid duration dt) oms) := by
  simp only [synthesize, generate_waveform, h]

theorem synthesize_error_of_modeFreqs {store : Store} {spin eps duration dt : ℚ}
    {modes : List (ℤ × ℤ)} {err : QNMError}
    (h : modeFreqs store spin eps modes = .error err) :
    synthesize store spin eps modes duration dt = .error err := by
  simp only [synthesize, generate_waveform, h]

theorem interpolate_ok_lookup {store : Store} {mode : ℤ × ℤ} {a : ℚ} {e : Entry}
    (h : interpolate_entry store mode a = .ok e) :
    ∃ es, lookupMode store mode = some es := by
  cases hlk : lookupMode store mode with
  | none => simp only [interpolate_entry, hlk] at h; cases h
  | some es => exact ⟨es, rfl⟩

/-! ### Time grid facts -/

theorem timeGrid_length (duration dt : ℚ) :
    (timeGrid duration dt).length = gridLen duration dt := by
  rw [timeGrid, List.length_map, List.length_range]

theorem timeGrid_get (duration dt : ℚ) (i : ℕ) (hi : i < (timeGrid duration dt).length) :
    (timeGrid duration dt).get ⟨i, hi⟩ = (i : ℚ) * dt := by
  rw [List.get_eq_getElem]
  simp only [timeGrid, List.getElem_map, List.getElem_range]

theorem gridLen_cast {duration dt : ℚ} (hd : 0 < duration) (hdt : 0 < dt) :
    ((gridLen duration dt : ℕ) : ℤ) = ⌈duration / dt⌉ := by
  have hpos : (0 : ℤ) < ⌈duration / dt⌉ := Int.ceil_pos.2 (div_pos hd hdt)
  exact Int.toNat_of_nonneg (le_of_lt hpos)

theorem gridLen_point_lt {duration dt : ℚ} (hdt : 0 < dt) {i : ℕ}
    (hi : i < gridLen duration dt) : (i : ℚ) * dt < duration := by
  have h1 : (i : ℤ) < ⌈duration / dt⌉ := Int.lt_toNat.1 hi
  have h2 : (i : ℚ) < duration / dt := by
    exact_mod_cast Int.lt_ceil.1 h1
  exact (lt_div_iff₀ hdt).1 h2

/-! ### Claim theorems -/

/-- Claim C1 (amended): for a mode with a non-empty entry list, a
query spin strictly outside the stored `[min, max]` that is also not
within the `1e-6` exact-match tolerance of any stored spin fails with
the out-of-range error carrying the bounds; a query exactly at the
minimum or maximum stored spin succeeds. -/
theorem claim_C1_out_of_range (store : Store) (mode : ℤ × ℤ)
    (entries : List Entry) (e0 eN : Entry) (a : ℚ)
    (hlk : lookupMode store mode = some entries)
    (hhead : entries.head? = some e0) (hlast : entries.getLast? = some eN)
    (hfar : ∀ e ∈ entries, ¬ |e.a - a| < tol)
    (hout : a < e0.a ∨ eN.a < a) :
    interpolate_entry store mode a = .error (.outOfRange a e0.a eN.a) ∧
    (∃ eMin, interpolate_entry store mode e0.a = .ok eMin) ∧
    (∃ eMax, interpolate_entry store mode eN.a = .ok eMax) := by
  have hfe : findExact a entries = none := findExact_eq_none_iff.2 hfar
  refine ⟨?_, ?_, ?_⟩
  · simp only [interpolate_entry, hlk]
    exact interpolateInList_out_of_range hhead hlast hfe hout
  · obtain ⟨e2, h1, _, _⟩ :=
      findExact_isSome_of_mem (head?_mem hhead)
        (show |e0.a - e0.a| < tol by simp [tol])
    exact ⟨e2, by simp only [interpolate_entry, hlk, interpolateInList, h1]⟩
  · obtain ⟨e2, h1, _, _⟩ :=
      findExact_isSome_of_mem (getLast?_mem hlast)
        (show |eN.a - eN.a| < tol by simp [tol])
    exact ⟨e2, by simp only [interpolate_entry, hlk, interpolateInList, h1]⟩

/-- Claim C1, counterexample to the literal statement: on the
two-entry `(2,0)` table the query spin `-1e-7` is strictly below the
minimum stored spin `0`, yet `interpolate_entry` succeeds (the
`1e-6` exact-match scan runs before the range check), so no
`OutOfRangeError` is raised. -/
theorem claim_C1_counterexample :
    (-(1/10000000) : ℚ) < testE0.a ∧
    (∀ e ∈ testEntries20, testE0.a ≤ e.a) ∧
    interpolate_entry testStore (2, 0) (-(1/10000000)) = .ok testE0 := by
  refine ⟨by norm_num [testE0], ?_, ?_⟩
  · intro e he
    rcases List.mem_cons.1 he with rfl | he2
    · exact le_refl _
    · rcases List.mem_cons.1 he2 with rfl | he3
      · norm_num [testE0, testE1]
      · cases he3
  · norm_num [interpolate_entry, lookupMode, interpolateInList, findExact, tol,
      abs_lt, testStore, testEntries20, testE0, testE1]

/-- Claim C2: with a sorted entry list and a query spin inside the
stored range but not within `1e-6` of any stored spin, interpolation
finds the bracketing consecutive pair and linearly interpolates every
numeric field independently, the returned spin being the query spin
itself. -/
theorem claim_C2_linear_interp (store : Store) (mode : ℤ × ℤ)
    (entries : List Entry) (e0 eN : Entry) (a : ℚ)
    (hlk : lookupMode store mode = some entries)
    (hsorted : List.Sorted (fun x y : Entry => x.a ≤ y.a) entries)
    (hhead : entries.head? = some e0) (hlast : entries.getLast? = some eN)
    (hfar : ∀ e ∈ entries, ¬ |e.a - a| < tol)
    (hlo : e0.a ≤ a) (hhi : a ≤ eN.a) :
    ∃ (i : ℕ) (eL eH : Entry),
      entries.get? i = some eL ∧ entries.get? (i + 1) = some eH ∧
      eL.a ≤ a ∧ a ≤ eH.a ∧
      interpolate_entry store mode a =
        .ok ⟨a,
          eL.omega0_R + (a - eL.a) / (eH.a - eL.a) * (eH.omega0_R - eL.omega0_R),
          eL.omega0_I + (a - eL.a) / (eH.a - eL.a) * (eH.omega0_I - eL.omega0_I),
          eL.alpha1 + (a - eL.a) / (eH.a - eL.a) * (eH.alpha1 - eL.alpha1),
          eL.alpha2 + (a - eL.a) / (eH.a - eL.a) * (eH.alpha2 - eL.alpha2),
          eL.beta1 + (a - eL.a) / (eH.a - eL.a) * (eH.beta1 - eL.beta1),
          eL.beta2 + (a - eL.a) / (eH.a - eL.a) * (eH.beta2 - eL.beta2)⟩ := by
  obtain ⟨i, eL, eH, h1, h2, h3, h4, h5⟩ :=
    interpolateInList_bracket hhead hlast (findExact_eq_none_iff.2 hfar) hlo hhi
  exact ⟨i, eL, eH, h1, h2, le_of_lt h3, h4, by
    simp only [interpolate_entry, hlk, h5]
    rfl⟩

/-- Claim C3: for any spin whose interpolation succeeds, the
frequency model returns the reference complex frequency shifted by
the quadratic corrections, and at `eps = 0` it returns exactly the
reference frequency. -/
theorem claim_C3_frequency_model (store : Store) (l n : ℤ) (a eps : ℚ)
    (entry : Entry)
    (hit : interpolate_entry store (l, n) a = .ok entry) :
    get_frequency store a l n eps =
      .ok (entry.omega0_R + (entry.alpha1 * eps + entry.alpha2 * eps ^ 2),
           entry.omega0_I + (entry.beta1 * eps + entry.beta2 * eps ^ 2)) ∧
    get_frequency store a l n 0 = .ok (entry.omega0_R, entry.omega0_I) := by
  obtain ⟨es, hlk⟩ := interpolate_ok_lookup hit
  refine ⟨by simp only [get_frequency, hlk, hit], ?_⟩
  simp only [get_frequency, hlk, hit]
  norm_num

/-- Claim C4 (amended): a stored entry whose spin differs from every
other stored spin of its mode by at least `1e-6` is returned verbatim
by interpolation at its own spin; and any query spin within `1e-6` of
some stored spin short-circuits interpolation, returning a stored
entry within tolerance verbatim. -/
theorem claim_C4_exact_match (store : Store) (mode : ℤ × ℤ)
    (entries : List Entry) (e : Entry) (s : ℚ)
    (hlk : lookupMode store mode = some entries)
    (he : e ∈ entries) (ha : e.a = s)
    (hsep : ∀ e2 ∈ entries, e2 ≠ e → tol ≤ |e2.a - s|) :
    interpolate_entry store mode s = .ok e ∧
    ∀ q : ℚ, (∃ e2 ∈ entries, |e2.a - q| < tol) →
      ∃ e3 ∈ entries, |e3.a - q| < tol ∧ interpolate_entry store mode q = .ok e3 := by
  constructor
  · have hfe := findExact_eq_of_sep he ha hsep
    simp only [interpolate_entry, hlk, interpolateInList, hfe]
  · rintro q ⟨e2, he2, hcl⟩
    obtain ⟨e3, h1, h2, h3⟩ := findExact_isSome_of_mem he2 hcl
    exact ⟨e3, h2, h3, by simp only [interpolate_entry, hlk, interpolateInList, h1]⟩

/-- Claim C4, counterexample to the literal statement: in a table
whose two stored spins `0` and `5e-7` lie within the `1e-6`
tolerance of each other, interpolating exactly at the stored spin
`5e-7` returns the other (first-matching) entry, whose `omega0_R`
differs from the queried entry's by far more than `1e-9`. -/
theorem claim_C4_counterexample :
    closeE1 ∈ [closeE0, closeE1] ∧
    interpolate_entry closeStore (2, 0) closeE1.a = .ok closeE0 ∧
    (1/1000000000 : ℚ) < |closeE0.omega0_R - closeE1.omega0_R| := by
  refine ⟨by simp, ?_, by norm_num [closeE0, closeE1]⟩
  norm_num [interpolate_entry, lookupMode, interpolateInList, findExact, tol,
    abs_lt, closeStore, closeE0, closeE1]

/-- Claim C5: superposition — whenever both requested modes have a
frequency, synthesis of `[A, B]` yields, over the identical time
grid, the elementwise sum of the strains of the single-mode
syntheses of `[A]` and `[B]`. -/
theorem claim_C5_superposition (store : Store) (spin eps duration dt : ℚ)
    (A B : ℤ × ℤ) (omA omB : ℚ × ℚ)
    (hA : get_frequency store spin A.1 A.2 eps = .ok omA)
    (hB : get_frequency store spin B.1 B.2 eps = .ok omB) :
    ∃ sA sB sAB : List ℝ,
      synthesize store spin eps [A] duration dt = .ok (timeGrid duration dt, sA) ∧
      synthesize store spin eps [B] duration dt = .ok (timeGrid duration dt, sB) ∧
      synthesize store spin eps [A, B] duration dt = .ok (timeGrid duration dt, sAB) ∧
      sAB = List.zipWith (· + ·) sA sB := by
  obtain ⟨lA, nA⟩ := A
  obtain ⟨lB, nB⟩ := B
  have hmA : modeFreqs store spin eps [(lA, nA)] = .ok [omA] := by
    simp only [modeFreqs, hA]
  have hmB : modeFreqs store spin eps [(lB, nB)] = .ok [omB] := by
    simp only [modeFreqs, hB]
  have hmAB : modeFreqs store spin eps [(lA, nA), (lB, nB)] = .ok [omA, omB] := by
    simp only [modeFreqs, hA, hB]
  refine ⟨_, _, _, synthesize_ok_of_modeFreqs hmA, synthesize_ok_of_modeFreqs hmB,
    synthesize_ok_of_modeFreqs hmAB, ?_⟩
  rw [accumStrain_eq, accumStrain_eq, accumStrain_eq, zipWith_add_map_same]
  refine congrArg (fun f => List.map f (timeGrid duration dt)) (funext fun t => ?_)
  simp

/-- Claim C6: a successful synthesis returns, for every grid point
`t`, the sum across the requested modes of
`1 * exp(omega_imag * t) * cos(omega_real * t)` (unit amplitude, zero
initial phase); for a single mode and a positive duration and step
the strain at `t = 0` is exactly `1`. -/
theorem claim_C6_contribution (store : Store) (spin eps duration dt : ℚ)
    (modes : List (ℤ × ℤ)) (oms : List (ℚ × ℚ))
    (hm : modeFreqs store spin eps modes = .ok oms) :
    synthesize store spin eps modes duration dt =
      .ok (timeGrid duration dt,
        (timeGrid duration dt).map (fun t : ℚ =>
          (oms.map (fun om =>
            1 * Real.exp ((om.2 : ℝ) * (t : ℝ)) *
              Real.cos ((om.1 : ℝ) * (t : ℝ)))).sum)) ∧
    (∀ om : ℚ × ℚ, oms = [om] → 0 < duration → 0 < dt →
      ((timeGrid duration dt).map (fun t : ℚ =>
          (oms.map (fun om2 =>
            1 * Real.exp ((om2.2 : ℝ) * (t : ℝ)) *
              Real.cos ((om2.1 : ℝ) * (t : ℝ)))).sum)).head? = some 1) := by
  constructor
  · rw [synthesize_ok_of_modeFreqs hm, accumStrain_eq]
    simp only [modeContrib]
  · rintro om rfl hd hdt
    have hpos : 0 < gridLen duration dt := by
      rw [gridLen]
      exact Int.lt_toNat.2 (Int.ceil_pos.2 (div_pos hd hdt))
    obtain ⟨k, hk⟩ := Nat.exists_eq_succ_of_ne_zero (Nat.pos_iff_ne_zero.1 hpos)
    rw [timeGrid, hk, List.range_succ_eq_map]
    simp [Real.exp_zero, Real.cos_zero]

/-- Claim C7: the time grid runs from `0` inclusive with uniform step
`dt`, has length `ceil(duration/dt)`, its `i`-th point is exactly
`i * dt` and stays strictly below `duration`; and a successful
synthesis returns exactly this grid as its time sequence. -/
theorem claim_C7_time_grid (duration dt : ℚ) (hd : 0 < duration) (hdt : 0 < dt) :
    ((timeGrid duration dt).length : ℤ) = ⌈duration / dt⌉ ∧
    (∀ (i : ℕ) (hi : i < (timeGrid duration dt).length),
      (timeGrid duration dt).get ⟨i, hi⟩ = (i : ℚ) * dt ∧
      0 ≤ (i : ℚ) * dt ∧ (i : ℚ) * dt < duration) ∧
    (∀ (store : Store) (spin eps : ℚ) (modes : List (ℤ × ℤ))
        (ts : List ℚ) (hs : List ℝ),
      synthesize store spin eps modes duration dt = .ok (ts, hs) →
      ts = timeGrid duration dt) := by
  refine ⟨?_, ?_, ?_⟩
  · rw [timeGrid_length]
    exact gridLen_cast hd hdt
  · intro i hi
    refine ⟨timeGrid_get duration dt i hi, ?_, ?_⟩
    · positivity
    · exact gridLen_point_lt hdt (by rwa [timeGrid_length] at hi)
  · intro store spin eps modes ts hs hok
    cases hmf : modeFreqs store spin eps modes with
    | error err =>
      rw [synthesize_error_of_modeFreqs hmf] at hok
      exact Except.noConfusion hok
    | ok oms =>
      rw [synthesize_ok_of_modeFreqs hmf] at hok
      exact (Prod.mk.injEq _ _ _ _ ▸ (Except.ok.inj hok) : _ ∧ _).1.symm

/-- Claim C8: synthesis is all-or-nothing — it returns a result
exactly when every requested mode's frequency lookup succeeds, and
any lookup failure is propagated unchanged as the failure of the
whole request. -/
theorem claim_C8_all_or_nothing (store : Store) (spin eps duration dt : ℚ)
    (modes : List (ℤ × ℤ)) :
    ((∃ p, synthesize store spin eps modes duration dt = .ok p) ↔
      ∀ m ∈ modes, ∃ om, get_frequency store spin m.1 m.2 eps = .ok om) ∧
    (∀ err, modeFreqs store spin eps modes = .error err →
      synthesize store spin eps modes duration dt = .error err) := by
  constructor
  · rw [← modeFreqs_isOk_iff]
    constructor
    · rintro ⟨p, hp⟩
      cases hmf : modeFreqs store spin eps modes with
      | error err =>
        rw [synthesize_error_of_modeFreqs hmf] at hp
        exact Except.noConfusion hp
      | ok oms => exact ⟨oms, rfl⟩
    · rintro ⟨oms, homs⟩
      exact ⟨_, synthesize_ok_of_modeFreqs homs⟩
  · exact fun err herr => synthesize_error_of_modeFreqs herr

/-- Claim C9: the output of `generate_waveform` does not depend on
the `mass` argument — any two masses give identical results, all
other arguments equal. -/
theorem claim_C9_mass_independent (store : Store) (m1 m2 spin eps : ℚ)
    (modes : List (ℤ × ℤ)) (duration dt : ℚ) :
    generate_waveform store m1 spin eps modes duration dt =
      generate_waveform store m2 spin eps modes duration dt := rfl

/-! ### Witnesses -/

/-- Claim C1 witness: the concrete scenario — on the `(2,0)` table
with spins `0` and `1`, the query spin `1.5` is rejected with bounds
`[0, 1]` (also through `get_frequency`), while queries exactly at
the bounds succeed. -/
theorem claim_C1_witness :
    lookupMode testStore (2, 0) = some testEntries20 ∧
    testEntries20.head? = some testE0 ∧
    testEntries20.getLast? = some testE1 ∧
    (∀ e ∈ testEntries20, ¬ |e.a - 3/2| < tol) ∧
    ((3/2 : ℚ) < testE0.a ∨ testE1.a < (3/2 : ℚ)) ∧
    testE0.a = 0 ∧ testE1.a = 1 ∧
    get_frequency testStore (3/2) 2 0 0 = .error (.outOfRange (3/2) 0 1) ∧
    (interpolate_entry testStore (2, 0) (3/2) =
        .error (.outOfRange (3/2) testE0.a testE1.a) ∧
      (∃ eMin, interpolate_entry testStore (2, 0) testE0.a = .ok eMin) ∧
      (∃ eMax, interpolate_entry testStore (2, 0) testE1.a = .ok eMax)) := by
  have hfar : ∀ e ∈ testEntries20, ¬ |e.a - 3/2| < tol := by
    intro e he
    rcases List.mem_cons.1 he with rfl | h2
    · norm_num [testE0, tol, abs_lt]
    · rcases List.mem_cons.1 h2 with rfl | h3
      · norm_num [testE1, tol, abs_lt]
      · cases h3
  have hout : (3/2 : ℚ) < testE0.a ∨ testE1.a < (3/2 : ℚ) := by
    right
    norm_num [testE1]
  refine ⟨rfl, rfl, rfl, hfar, hout, rfl, rfl, ?_,
    claim_C1_out_of_range testStore (2, 0) testEntries20 testE0 testE1 (3/2)
      rfl rfl rfl hfar hout⟩
  norm_num [get_frequency, interpolate_entry, lookupMode, interpolateInList,
    findExact, tol, abs_lt, interpolateNoExact, pyGet,
    testStore, testEntries20, testE0, testE1]

/-- Claim C2 witness: the concrete scenario — interpolating the
`(2,0)` table at spin `0.5` brackets between the entries at `0` and
`1` and yields `0.55 - 0.09i` through `get_frequency` at
`eps = 0`. -/
theorem claim_C2_witness :
    lookupMode testStore (2, 0) = some testEntries20 ∧
    List.Sorted (fun x y : Entry => x.a ≤ y.a) testEntries20 ∧
    testEntries20.head? = some testE0 ∧
    testEntries20.getLast? = some testE1 ∧
    (∀ e ∈ testEntries20, ¬ |e.a - 1/2| < tol) ∧
    testE0.a ≤ (1/2 : ℚ) ∧ (1/2 : ℚ) ≤ testE1.a ∧
    (∃ (i : ℕ) (eL eH : Entry),
      testEntries20.get? i = some eL ∧ testEntries20.get? (i + 1) = some eH ∧
      eL.a ≤ (1/2 : ℚ) ∧ (1/2 : ℚ) ≤ eH.a ∧
      interpolate_entry testStore (2, 0) (1/2) =
        .ok ⟨1/2,
          eL.omega0_R + ((1:ℚ)/2 - eL.a) / (eH.a - eL.a) * (eH.omega0_R - eL.omega0_R),
          eL.omega0_I + ((1:ℚ)/2 - eL.a) / (eH.a - eL.a) * (eH.omega0_I - eL.omega0_I),
          eL.alpha1 + ((1:ℚ)/2 - eL.a) / (eH.a - eL.a) * (eH.alpha1 - eL.alpha1),
          eL.alpha2 + ((1:ℚ)/2 - eL.a) / (eH.a - eL.a) * (eH.alpha2 - eL.alpha2),
          eL.beta1 + ((1:ℚ)/2 - eL.a) / (eH.a - eL.a) * (eH.beta1 - eL.beta1),
          eL.beta2 + ((1:ℚ)/2 - eL.a) / (eH.a - eL.a) * (eH.beta2 - eL.beta2)⟩) ∧
    get_frequency testStore (1/2) 2 0 0 = .ok (11/20, -9/100) := by
  have hsort : List.Sorted (fun x y : Entry => x.a ≤ y.a) testEntries20 := by
    simp only [testEntries20, List.sorted_cons, List.mem_singleton,
      List.sorted_singleton, forall_eq, and_true]
    norm_num [testE0, testE1]
  have hfar : ∀ e ∈ testEntries20, ¬ |e.a - 1/2| < tol := by
    intro e he
    rcases List.mem_cons.1 he with rfl | h2
    · norm_num [testE0, tol, abs_lt]
    · rcases List.mem_cons.1 h2 with rfl | h3
      · norm_num [testE1, tol, abs_lt]
      · cases h3
  have hlo : testE0.a ≤ (1/2 : ℚ) := by norm_num [testE0]
  have hhi : (1/2 : ℚ) ≤ testE1.a := by norm_num [testE1]
  refine ⟨rfl, hsort, rfl, rfl, hfar, hlo, hhi,
    claim_C2_linear_interp testStore (2, 0) testEntries20 testE0 testE1 (1/2)
      rfl hsort rfl rfl hfar hlo hhi, ?_⟩
  norm_num [get_frequency, interpolate_entry, lookupMode, interpolateInList,
    findExact, tol, interpolateNoExact, pyGet, bracketInterp, findHigher,
    lerpEntry, abs_lt, testStore, testEntries20, testE0, testE1]

/-- Claim C3 witness: with the reference entry interpolated at spin
`0.5`, the frequency at `eps = 1` carries the full quadratic
correction and the frequency at `eps = 0` is exactly the reference
pair `(0.55, -0.09)`. -/
theorem claim_C3_witness :
    interpolate_entry testStore (2, 0) (1/2) = .ok interpHalf ∧
    (get_frequency testStore (1/2) 2 0 1 =
        .ok (interpHalf.omega0_R +
              (interpHalf.alpha1 * 1 + interpHalf.alpha2 * 1 ^ 2),
            interpHalf.omega0_I +
              (interpHalf.beta1 * 1 + interpHalf.beta2 * 1 ^ 2)) ∧
      get_frequency testStore (1/2) 2 0 0 =
        .ok (interpHalf.omega0_R, interpHalf.omega0_I)) := by
  have hit : interpolate_entry testStore (2, 0) (1/2) = .ok interpHalf := by
    norm_num [interpolate_entry, lookupMode, interpolateInList, findExact, tol,
      interpolateNoExact, pyGet, bracketInterp, findHigher, lerpEntry, abs_lt,
      testStore, testEntries20, testE0, testE1, interpHalf]
  exact ⟨hit, claim_C3_frequency_model testStore 2 0 (1/2) 1 interpHalf hit⟩

/-- Claim C4 witness: the stored entry at spin `1` of the `(2,0)`
table (whose spin is `1` away from the only other stored spin) is
returned verbatim when queried at exactly spin `1`. -/
theorem claim_C4_witness :
    lookupMode testStore (2, 0) = some testEntries20 ∧
    testE1 ∈ testEntries20 ∧ testE1.a = 1 ∧
    (∀ e2 ∈ testEntries20, e2 ≠ testE1 → tol ≤ |e2.a - 1|) ∧
    (interpolate_entry testStore (2, 0) 1 = .ok testE1 ∧
      ∀ q : ℚ, (∃ e2 ∈ testEntries20, |e2.a - q| < tol) →
        ∃ e3 ∈ testEntries20, |e3.a - q| < tol ∧
          interpolate_entry testStore (2, 0) q = .ok e3) := by
  have hmem : testE1 ∈ testEntries20 := by simp [testEntries20]
  have hsep : ∀ e2 ∈ testEntries20, e2 ≠ testE1 → tol ≤ |e2.a - 1| := by
    intro e2 he2 hne
    rcases List.mem_cons.1 he2 with rfl | h2
    · norm_num [testE0, tol]
    · rcases List.mem_cons.1 h2 with rfl | h3
      · exact absurd rfl hne
      · cases h3
  exact ⟨rfl, hmem, rfl, hsep,
    claim_C4_exact_match testStore (2, 0) testEntries20 testE1 1 rfl hmem rfl hsep⟩

/-- Claim C5 witness: modes `(2,0)` and `(3,0)` both resolve at spin
`0`, and the two-mode synthesis is the elementwise sum of the two
single-mode syntheses over the same grid. -/
theorem claim_C5_witness :
    get_frequency testStore 0 2 0 0 = .ok (1/2, -1/10) ∧
    get_frequency testStore 0 3 0 0 = .ok (7/10, -1/5) ∧
    (∃ sA sB sAB : List ℝ,
      synthesize testStore 0 0 [(2, 0)] 1 1 = .ok (timeGrid 1 1, sA) ∧
      synthesize testStore 0 0 [(3, 0)] 1 1 = .ok (timeGrid 1 1, sB) ∧
      synthesize testStore 0 0 [(2, 0), (3, 0)] 1 1 = .ok (timeGrid 1 1, sAB) ∧
      sAB = List.zipWith (· + ·) sA sB) := by
  have hA : get_frequency testStore 0 2 0 0 = .ok (1/2, -1/10) := by
    norm_num [get_frequency, interpolate_entry, lookupMode, interpolateInList,
      findExact, tol, abs_lt, testStore, testEntries20, testE0, testE1]
  have hB : get_frequency testStore 0 3 0 0 = .ok (7/10, -1/5) := by
    norm_num [get_frequency, interpolate_entry, lookupMode, interpolateInList,
      findExact, tol, abs_lt, testStore, testEntries20, testE0, testE1, testE3]
  exact ⟨hA, hB,
    claim_C5_superposition testStore 0 0 1 1 (2, 0) (3, 0) (1/2, -1/10) (7/10, -1/5) hA hB⟩

/-- Claim C6 witness: the single-mode synthesis of `(2,0)` at spin
`0`, `eps = 0`, `duration = dt = 1`, whose strain is the decaying
cosinusoid of `omega = (1/2, -1/10)` and starts at exactly `1`. -/
theorem claim_C6_witness :
    modeFreqs testStore 0 0 [(2, 0)] = .ok [(1/2, -1/10)] ∧
    (synthesize testStore 0 0 [(2, 0)] 1 1 =
        .ok (timeGrid 1 1,
          (timeGrid 1 1).map (fun t : ℚ =>
            (([(1/2, -1/10)] : List (ℚ × ℚ)).map (fun om =>
              1 * Real.exp ((om.2 : ℝ) * (t : ℝ)) *
                Real.cos ((om.1 : ℝ) * (t : ℝ)))).sum)) ∧
      (∀ om : ℚ × ℚ, ([(1/2, -1/10)] : List (ℚ × ℚ)) = [om] →
        (0 : ℚ) < 1 → (0 : ℚ) < 1 →
        ((timeGrid 1 1).map (fun t : ℚ =>
            (([(1/2, -1/10)] : List (ℚ × ℚ)).map (fun om2 =>
              1 * Real.exp ((om2.2 : ℝ) * (t : ℝ)) *
                Real.cos ((om2.1 : ℝ) * (t : ℝ)))).sum)).head? = some 1)) := by
  have hm : modeFreqs testStore 0 0 [(2, 0)] = .ok [(1/2, -1/10)] := by
    norm_num [modeFreqs, get_frequency, interpolate_entry, lookupMode,
      interpolateInList, findExact, tol, abs_lt,
      testStore, testEntries20, testE0, testE1]
  exact ⟨hm, claim_C6_contribution testStore 0 0 1 1 [(2, 0)] [(1/2, -1/10)] hm⟩

/-- Claim C7 witness: the grid for `duration = 1`, `dt = 1/2` has
length `⌈2⌉ = 2`, points `i * dt` strictly below the duration, and is
the time sequence of any successful synthesis with those
parameters. -/
theorem claim_C7_witness :
    (0 : ℚ) < 1 ∧ (0 : ℚ) < 1/2 ∧
    (((timeGrid 1 (1/2)).length : ℤ) = ⌈(1 : ℚ) / (1/2)⌉ ∧
      (∀ (i : ℕ) (hi : i < (timeGrid 1 (1/2)).length),
        (timeGrid 1 (1/2)).get ⟨i, hi⟩ = (i : ℚ) * (1/2) ∧
        0 ≤ (i : ℚ) * (1/2) ∧ (i : ℚ) * (1/2) < 1) ∧
      (∀ (store : Store) (spin eps : ℚ) (modes : List (ℤ × ℤ))
          (ts : List ℚ) (hs : List ℝ),
        synthesize store spin eps modes 1 (1/2) = .ok (ts, hs) →
        ts = timeGrid 1 (1/2))) :=
  ⟨by norm_num, by norm_num,
    claim_C7_time_grid 1 (1/2) (by norm_num) (by norm_num)⟩

/-- Claim C8 witness: the all-or-nothing equivalence instantiated at
the concrete table, mode list `[(2,0)]`, spin `0` and `eps = 0`. -/
theorem claim_C8_witness :
    ((∃ p, synthesize testStore 0 0 [(2, 0)] 1 1 = .ok p) ↔
      ∀ m ∈ ([(2, 0)] : List (ℤ × ℤ)),
        ∃ om, get_frequency testStore 0 m.1 m.2 0 = .ok om) ∧
    (∀ err, modeFreqs testStore 0 0 [(2, 0)] = .error err →
      synthesize testStore 0 0 [(2, 0)] 1 1 = .error err) :=
  claim_C8_all_or_nothing testStore 0 0 1 1 [(2, 0)]

end BHW
